import Mathlib

/-!
# Verification of the vanilla stats parser core
  (`software/py/vanilla_stats_parser.py`)

A shallow embedding of the tag-decoding and counter-matching-and-rollup
engine of the vanilla stats parser, together with theorems settling the
specification claims about it.

The embedding models:
* Python `collections.Counter` as used by the parser (a dict with default
  value 0 on reads of missing keys, whose subtraction keeps only entries
  with a positive difference),
* the `CudaStatTag` bit-field decoder,
* the stateful fold of `__generate_tile_stats` over the trace stream, and
* the rollup of `__generate_manycore_stats_all`.
-/

namespace VanillaStats

/-! ## Python `collections.Counter`

A `Counter` is a dict mapping string keys to integer counts.  We record the
set of present keys (`keys`) next to the value function: Python dicts
distinguish a key stored with value 0 from an absent key (truthiness of the
dict depends on it), while `c[k]` on a `Counter` reads 0 for an absent key
without inserting it. -/

structure Counter where
  keys : List String
  val : String → Int

def Counter.empty : Counter := ⟨[], fun _ => 0⟩

def hasKey (ks : List String) (k : String) : Bool :=
  ks.any (fun k2 => k2 == k)

/-- `c[k]` on a Python `Counter`: the stored value, or 0 when absent. -/
def cget (c : Counter) (k : String) : Int :=
  if hasKey c.keys k then c.val k else 0

/-- `c[k] = v`: store `v` at `k`, inserting the key when absent (a key is
stored even when `v` is 0 or negative). -/
def cset (c : Counter) (k : String) (v : Int) : Counter :=
  ⟨if hasKey c.keys k then c.keys else c.keys ++ [k],
   fun k2 => if k2 = k then v else c.val k2⟩

/-- `c[k] += v` on a Python `Counter`. -/
def cadd (c : Counter) (k : String) (v : Int) : Counter :=
  cset c k (cget c k + v)

/-- Python truthiness of the underlying dict: falsy iff it has no keys. -/
def Counter.isEmpty (c : Counter) : Bool := c.keys.isEmpty

/-- Python `Counter` subtraction `c1 - c2`: the result holds the keys of
`c1` followed by the keys of `c2` that are not in `c1`, but **keeps only
the entries whose difference is positive** (zero and negative differences
are dropped, so they read back as 0). -/
def csub (c1 c2 : Counter) : Counter :=
  ⟨(c1.keys ++ c2.keys.filter (fun k => !hasKey c1.keys k)).filter
     (fun k => decide (0 < cget c1 k - cget c2 k)),
   fun k => cget c1 k - cget c2 k⟩

theorem hasKey_iff {ks : List String} {k : String} :
    hasKey ks k = true ↔ k ∈ ks := by
  unfold hasKey
  rw [List.any_eq_true]
  constructor
  · rintro ⟨a, ha, hbeq⟩
    rw [beq_iff_eq] at hbeq
    exact hbeq ▸ ha
  · intro h
    exact ⟨k, h, beq_self_eq_true k⟩

theorem cget_empty (k : String) : cget Counter.empty k = 0 := rfl

theorem cget_mk (ks : List String) (f : String → Int) (k : String) :
    cget ⟨ks, f⟩ k = if hasKey ks k then f k else 0 := rfl

theorem cget_cset (c : Counter) (k k2 : String) (v : Int) :
    cget (cset c k v) k2 = if k2 = k then v else cget c k2 := by
  by_cases h : k2 = k
  · subst h
    by_cases hk : hasKey c.keys k2 = true
    · simp [cget, cset, hk]
    · have h2 : hasKey (c.keys ++ [k2]) k2 = true := hasKey_iff.mpr (by simp)
      simp [cget, cset, hk, h2]
  · by_cases hk : hasKey c.keys k = true
    · simp [cget, cset, hk, h]
    · have h2 : hasKey (c.keys ++ [k]) k2 = hasKey c.keys k2 := by
        rw [Bool.eq_iff_iff, hasKey_iff, hasKey_iff]
        simp [List.mem_append, h]
      simp [cget, cset, hk, h2, h]

theorem cget_cadd (c : Counter) (k k2 : String) (v : Int) :
    cget (cadd c k v) k2 = if k2 = k then cget c k + v else cget c k2 := by
  unfold cadd
  rw [cget_cset]

theorem cget_cadd_self (c : Counter) (k : String) (v : Int) :
    cget (cadd c k v) k = cget c k + v := by
  rw [cget_cadd]; simp

theorem cget_cadd_ne (c : Counter) {k k2 : String} (v : Int) (h : k2 ≠ k) :
    cget (cadd c k v) k2 = cget c k2 := by
  rw [cget_cadd]; simp [h]

/-- The fundamental reading rule for Python `Counter` subtraction: the
difference when positive, otherwise 0. -/
theorem cget_csub (c1 c2 : Counter) (k : String) :
    cget (csub c1 c2) k = max (cget c1 k - cget c2 k) 0 := by
  rw [csub, cget_mk]
  by_cases hk : hasKey ((c1.keys ++ c2.keys.filter (fun k => !hasKey c1.keys k)).filter
      (fun k => decide (0 < cget c1 k - cget c2 k))) k = true
  · rw [if_pos hk]
    rw [hasKey_iff, List.mem_filter] at hk
    have hpos : 0 < cget c1 k - cget c2 k := by
      have := hk.2; simpa using this
    omega
  · rw [if_neg hk]
    rw [Bool.not_eq_true, Bool.eq_false_iff, Ne, hasKey_iff, List.mem_filter] at hk
    by_cases hpos : 0 < cget c1 k - cget c2 k
    · exfalso
      apply hk
      refine ⟨?_, by simpa using hpos⟩
      rw [List.mem_append]
      by_cases h1 : hasKey c1.keys k = true
      · exact Or.inl (hasKey_iff.mp h1)
      · right
        rw [List.mem_filter]
        have h2 : hasKey c2.keys k = true := by
          by_contra h2
          rw [Bool.not_eq_true] at h1 h2
          simp [cget, h1, h2] at hpos
        exact ⟨hasKey_iff.mp h2, by simp [h1]⟩
    · omega

/-! ### Folds writing a whole record into a counter -/

/-- `for op in ops: c[op] = f op` -/
def setAll (c : Counter) (ops : List String) (f : String → Int) : Counter :=
  ops.foldl (fun c op => cset c op (f op)) c

/-- `for op in ops: c[op] += f op` -/
def addAll (c : Counter) (ops : List String) (f : String → Int) : Counter :=
  ops.foldl (fun c op => cadd c op (f op)) c

theorem setAll_nil (c : Counter) (f : String → Int) : setAll c [] f = c := rfl

theorem setAll_cons (c : Counter) (a : String) (l : List String) (f : String → Int) :
    setAll c (a :: l) f = setAll (cset c a (f a)) l f := rfl

theorem addAll_nil (c : Counter) (f : String → Int) : addAll c [] f = c := rfl

theorem addAll_cons (c : Counter) (a : String) (l : List String) (f : String → Int) :
    addAll c (a :: l) f = addAll (cadd c a (f a)) l f := rfl

theorem cget_setAll (c : Counter) (ops : List String) (f : String → Int)
    (k : String) :
    cget (setAll c ops f) k = if k ∈ ops then f k else cget c k := by
  induction ops generalizing c with
  | nil => simp [setAll_nil]
  | cons a l ih =>
    rw [setAll_cons, ih]
    by_cases hl : k ∈ l
    · simp [hl]
    · by_cases ha : k = a
      · subst ha
        simp [hl, cget_cset]
      · simp [hl, ha, cget_cset]

theorem cget_addAll_notMem (c : Counter) (ops : List String) (f : String → Int)
    (k : String) (h : k ∉ ops) :
    cget (addAll c ops f) k = cget c k := by
  induction ops generalizing c with
  | nil => simp [addAll_nil]
  | cons a l ih =>
    rw [addAll_cons, ih _ (fun hk => h (List.mem_cons_of_mem a hk))]
    exact cget_cadd_ne c (f a) (fun ha => h (ha ▸ List.mem_cons_self a l))

theorem cget_addAll (c : Counter) (ops : List String) (f : String → Int)
    (k : String) (hnd : ops.Nodup) :
    cget (addAll c ops f) k = cget c k + if k ∈ ops then f k else 0 := by
  induction ops generalizing c with
  | nil => simp [addAll_nil]
  | cons a l ih =>
    rcases List.nodup_cons.mp hnd with ⟨ha, hl⟩
    rw [addAll_cons]
    by_cases hk : k = a
    · subst hk
      rw [cget_addAll_notMem _ _ _ _ ha, cget_cadd_self]
      simp
    · rw [ih _ hl, cget_cadd_ne c (f a) hk]
      by_cases hkl : k ∈ l <;> simp [hkl, hk]

/-- `for op in ops: c[tkey] += c[op]` — the totals accumulation loop. -/
def accTotal (c : Counter) (tkey : String) (ops : List String) : Counter :=
  ops.foldl (fun c op => cadd c tkey (cget c op)) c

theorem accTotal_nil (c : Counter) (tkey : String) : accTotal c tkey [] = c := rfl

theorem accTotal_cons (c : Counter) (tkey a : String) (l : List String) :
    accTotal c tkey (a :: l) = accTotal (cadd c tkey (cget c a)) tkey l := rfl

theorem cget_accTotal_ne (c : Counter) (tkey : String) (ops : List String)
    {k : String} (h : k ≠ tkey) :
    cget (accTotal c tkey ops) k = cget c k := by
  induction ops generalizing c with
  | nil => simp [accTotal_nil]
  | cons a l ih =>
    rw [accTotal_cons, ih]
    exact cget_cadd_ne c _ h

theorem cget_accTotal_self (c : Counter) (tkey : String) (ops : List String)
    (h : tkey ∉ ops) :
    cget (accTotal c tkey ops) tkey
      = cget c tkey + (ops.map (cget c)).sum := by
  induction ops generalizing c with
  | nil => simp [accTotal_nil]
  | cons a l ih =>
    rw [accTotal_cons, ih _ (fun hk => h (List.mem_cons_of_mem a hk))]
    rw [cget_cadd_self]
    have hmap : l.map (cget (cadd c tkey (cget c a))) = l.map (cget c) := by
      apply List.map_congr_left
      intro b hb
      exact cget_cadd_ne c _ (fun hbt => h (hbt ▸ List.mem_cons_of_mem a hb))
    rw [hmap, List.map_cons, List.sum_cons]
    ring

/-! ## CudaStatTag: the packed tag decoder -/

def TAG_WIDTH : Nat := 4
def TAG_INDEX : Nat := 0
def TG_ID_WIDTH : Nat := 14
def TG_ID_INDEX : Nat := TAG_WIDTH + TAG_INDEX
def X_WIDTH : Nat := 6
def X_INDEX : Nat := TG_ID_WIDTH + TG_ID_INDEX
def Y_WIDTH : Nat := 6
def Y_INDEX : Nat := X_WIDTH + X_INDEX
def TYPE_WIDTH : Nat := 2
def TYPE_INDEX : Nat := Y_WIDTH + Y_INDEX

/-- Python `(s >> idx) & ((1 << width) - 1)` on an `int`: the arithmetic
right shift is floor division by `2 ^ idx`, which coincides with Euclidean
division because the divisor is positive, and AND with the low-ones mask
`(1 << width) - 1` is reduction mod `2 ^ width` (Python `%` with a positive
modulus is the Euclidean remainder). -/
def extractField (s : Int) (idx width : Nat) : Int :=
  (s / 2 ^ idx) % 2 ^ width

inductive StatType
  | STAT
  | START
  | END
deriving DecidableEq

/-- The Python `StatType(...)` enum lookup: value 0 is STAT, 1 is START,
2 is END, and any other value raises `ValueError` (modelled as `none`). -/
def StatType.ofCode (v : Int) : Option StatType :=
  if v = 0 then some .STAT
  else if v = 1 then some .START
  else if v = 2 then some .END
  else none

structure CudaStatTag where
  s : Int
  type : StatType

/-- `CudaStatTag.__init__`: store the raw tag and decode the 2-bit stat
type, failing (Python `ValueError`) when that field is not 0, 1 or 2. -/
def mkCudaStatTag (tag : Int) : Option CudaStatTag :=
  (StatType.ofCode (extractField tag TYPE_INDEX TYPE_WIDTH)).map
    (fun ty => ⟨tag, ty⟩)

def CudaStatTag.tag (c : CudaStatTag) : Int :=
  extractField c.s TAG_INDEX TAG_WIDTH

def CudaStatTag.tg_id (c : CudaStatTag) : Int :=
  extractField c.s TG_ID_INDEX TG_ID_WIDTH

def CudaStatTag.x (c : CudaStatTag) : Int :=
  extractField c.s X_INDEX X_WIDTH

def CudaStatTag.y (c : CudaStatTag) : Int :=
  extractField c.s Y_INDEX Y_WIDTH

def CudaStatTag.statType (c : CudaStatTag) : StatType := c.type

def CudaStatTag.isStart (c : CudaStatTag) : Bool :=
  c.type == StatType.START

def CudaStatTag.isEnd (c : CudaStatTag) : Bool :=
  c.type == StatType.END

def CudaStatTag.isStat (c : CudaStatTag) : Bool :=
  c.type == StatType.STAT

/-- Written from the spec's words for the round-trip claim: the integer
formed by placing smallTag at bit index 0, workGroupId at index 4, coreX at
index 18, coreY at index 24 and eventKind at index 30. -/
def packFields (eventKind coreY coreX workGroupId smallTag : Nat) : Int :=
  (smallTag : Int) + (workGroupId : Int) * 2 ^ 4 + (coreX : Int) * 2 ^ 18
    + (coreY : Int) * 2 ^ 24 + (eventKind : Int) * 2 ^ 30

/-- **C3**: decode is a left inverse of packing: for every eventKind in
{0,1,2}, coreY < 64, coreX < 64, workGroupId < 16384, smallTag < 16,
decoding the packed integer recovers exactly those five field values. -/
theorem decode_packFields_roundtrip
    (ek y x wg t : Nat) (hek : ek < 3) (hy : y < 64) (hx : x < 64)
    (hwg : wg < 16384) (ht : t < 16) :
    ∃ c, mkCudaStatTag (packFields ek y x wg t) = some c ∧
      c.tag = t ∧ c.tg_id = wg ∧ c.x = x ∧ c.y = y ∧
      StatType.ofCode ek = some c.statType := by
  have hTg : extractField (packFields ek y x wg t) TAG_INDEX TAG_WIDTH = (t : Int) := by
    simp only [extractField, packFields, TAG_INDEX, TAG_WIDTH]
    norm_num
    omega
  have hWg : extractField (packFields ek y x wg t) TG_ID_INDEX TG_ID_WIDTH = (wg : Int) := by
    simp only [extractField, packFields, TG_ID_INDEX, TG_ID_WIDTH, TAG_INDEX, TAG_WIDTH]
    norm_num
    omega
  have hX : extractField (packFields ek y x wg t) X_INDEX X_WIDTH = (x : Int) := by
    simp only [extractField, packFields, X_INDEX, X_WIDTH, TG_ID_INDEX, TG_ID_WIDTH,
      TAG_INDEX, TAG_WIDTH]
    norm_num
    omega
  have hY : extractField (packFields ek y x wg t) Y_INDEX Y_WIDTH = (y : Int) := by
    simp only [extractField, packFields, Y_INDEX, Y_WIDTH, X_INDEX, X_WIDTH,
      TG_ID_INDEX, TG_ID_WIDTH, TAG_INDEX, TAG_WIDTH]
    norm_num
    omega
  have hE : extractField (packFields ek y x wg t) TYPE_INDEX TYPE_WIDTH = (ek : Int) := by
    simp only [extractField, packFields, TYPE_INDEX, TYPE_WIDTH, Y_INDEX, Y_WIDTH,
      X_INDEX, X_WIDTH, TG_ID_INDEX, TG_ID_WIDTH, TAG_INDEX, TAG_WIDTH]
    norm_num
    omega
  have hty : ∃ ty, StatType.ofCode (ek : Int) = some ty := by
    interval_cases ek
    · exact ⟨.STAT, by norm_num [StatType.ofCode]⟩
    · exact ⟨.START, by norm_num [StatType.ofCode]⟩
    · exact ⟨.END, by norm_num [StatType.ofCode]⟩
  obtain ⟨ty, hty⟩ := hty
  refine ⟨⟨packFields ek y x wg t, ty⟩, ?_, hTg, hWg, hX, hY, hty⟩
  rw [mkCudaStatTag, hE, hty]
  rfl

/-- Closed witness for the round-trip theorem at eventKind 2, coreY 3,
coreX 4, workGroupId 5, smallTag 6. -/
theorem decode_packFields_roundtrip_witness :
    ∃ c, mkCudaStatTag (packFields 2 3 4 5 6) = some c ∧
      c.tag = (6 : Nat) ∧ c.tg_id = (5 : Nat) ∧ c.x = (4 : Nat) ∧ c.y = (3 : Nat) ∧
      StatType.ofCode (2 : Nat) = some c.statType :=
  decode_packFields_roundtrip 2 3 4 5 6 (by norm_num) (by norm_num)
    (by norm_num) (by norm_num) (by norm_num)

/-- **C8**: decoding fails exactly when the 2-bit eventKind field
`(raw >> 30) & 3` equals 3; the values 0, 1, 2 decode successfully to
STAT, START and END respectively. -/
theorem decode_invalid_iff (raw : Int) :
    (mkCudaStatTag raw = none ↔ extractField raw TYPE_INDEX TYPE_WIDTH = 3)
    ∧ (extractField raw TYPE_INDEX TYPE_WIDTH = 0 →
        ∃ c, mkCudaStatTag raw = some c ∧ c.statType = StatType.STAT)
    ∧ (extractField raw TYPE_INDEX TYPE_WIDTH = 1 →
        ∃ c, mkCudaStatTag raw = some c ∧ c.statType = StatType.START)
    ∧ (extractField raw TYPE_INDEX TYPE_WIDTH = 2 →
        ∃ c, mkCudaStatTag raw = some c ∧ c.statType = StatType.END) := by
  have hmk : mkCudaStatTag raw
      = (StatType.ofCode (extractField raw TYPE_INDEX TYPE_WIDTH)).map
          (fun ty => ⟨raw, ty⟩) := rfl
  have h0 : 0 ≤ extractField raw TYPE_INDEX TYPE_WIDTH := by
    unfold extractField
    omega
  have h4 : extractField raw TYPE_INDEX TYPE_WIDTH < 4 := by
    unfold extractField
    norm_num [TYPE_WIDTH]
    omega
  rcases (show extractField raw TYPE_INDEX TYPE_WIDTH = 0
      ∨ extractField raw TYPE_INDEX TYPE_WIDTH = 1
      ∨ extractField raw TYPE_INDEX TYPE_WIDTH = 2
      ∨ extractField raw TYPE_INDEX TYPE_WIDTH = 3 by omega) with h | h | h | h
  · have hsome : mkCudaStatTag raw = some ⟨raw, StatType.STAT⟩ := by
      rw [hmk, h]; rfl
    refine ⟨⟨fun hn => ?_, fun h3 => ?_⟩, fun _ => ⟨_, hsome, rfl⟩,
      fun h1 => ?_, fun h2 => ?_⟩
    · rw [hsome] at hn; exact absurd hn (by simp)
    all_goals (exfalso; omega)
  · have hsome : mkCudaStatTag raw = some ⟨raw, StatType.START⟩ := by
      rw [hmk, h]; rfl
    refine ⟨⟨fun hn => ?_, fun h3 => ?_⟩, fun h0 => ?_,
      fun _ => ⟨_, hsome, rfl⟩, fun h2 => ?_⟩
    · rw [hsome] at hn; exact absurd hn (by simp)
    all_goals (exfalso; omega)
  · have hsome : mkCudaStatTag raw = some ⟨raw, StatType.END⟩ := by
      rw [hmk, h]; rfl
    refine ⟨⟨fun hn => ?_, fun h3 => ?_⟩, fun h0 => ?_, fun h1 => ?_,
      fun _ => ⟨_, hsome, rfl⟩⟩
    · rw [hsome] at hn; exact absurd hn (by simp)
    all_goals (exfalso; omega)
  · have hnone : mkCudaStatTag raw = none := by
      rw [hmk, h]; rfl
    refine ⟨⟨fun _ => h, fun _ => hnone⟩, fun h0 => ?_, fun h1 => ?_, fun h2 => ?_⟩
    all_goals (exfalso; omega)

/-- Closed witness for the decode-failure theorem: eventKind field 3 fails,
eventKind field 2 decodes to END. -/
theorem decode_invalid_iff_witness :
    mkCudaStatTag (3 * 2 ^ 30) = none
    ∧ ∃ c, mkCudaStatTag (2 * 2 ^ 30) = some c ∧ c.statType = StatType.END :=
  ⟨(decode_invalid_iff (3 * 2 ^ 30)).1.mpr (by decide),
   (decode_invalid_iff (2 * 2 ^ 30)).2.2.2 (by decide)⟩

/-! ## The stats engine (`VanillaStatsParser.__generate_tile_stats`) -/

structure Schema where
  stats : List String
  instrs : List String
  misses : List String
  stalls : List String

/-- `self.all_ops = self.stats + self.instrs + self.misses + self.stalls` -/
def Schema.allOps (sch : Schema) : List String :=
  sch.stats ++ sch.instrs ++ sch.misses ++ sch.stalls

/-- After `__generate_tile_stats` finishes, the three synthetic totals are
appended to `all_ops` (source line 848); `__generate_manycore_stats_all`
iterates over this extended list. -/
def Schema.allOpsFull (sch : Schema) : List String :=
  sch.allOps ++ ["instr_total", "stall_total", "miss_total"]

/-- The synthetic totals are not themselves schema columns
(`parse_header` never emits them; it drops an `instr_total` column
explicitly). -/
def SchemaOK (sch : Schema) : Prop :=
  "instr_total" ∉ sch.allOps ∧ "stall_total" ∉ sch.allOps
    ∧ "miss_total" ∉ sch.allOps

structure Dims where
  dimY : Nat
  dimX : Nat

def BSG_ORIGIN_X : Int := 0
def BSG_ORIGIN_Y : Int := 1

def maxTags : Nat := 1 <<< TAG_WIDTH
def maxTileGroups : Nat := 1 <<< TG_ID_WIDTH

/-- One row of the input: a mapping from every column name to its integer
value (the parser reads `trace[op] = int(row[op])` for every schema
operation, and reads the `y`, `x` and `tag` columns of the same row
directly). -/
structure Trace where
  counts : String → Int

def Trace.y (t : Trace) : Int := t.counts "y"
def Trace.x (t : Trace) : Int := t.counts "x"
def Trace.tagRaw (t : Trace) : Int := t.counts "tag"

/-- Python list indexing `lst[i]` on a list of length `n`: an index in
`[0, n)` is used as is, an index in `[-n, 0)` wraps to `n + i`, and
anything else raises `IndexError` (modelled as `none`). -/
def pyIdx (n : Nat) (i : Int) : Option Nat :=
  if 0 ≤ i ∧ i < (n : Int) then some i.toNat
  else if -(n : Int) ≤ i ∧ i < 0 then some (i + n).toNat
  else none

def upd1 {α : Type} (f : Nat → α) (a : Nat) (v : α) : Nat → α :=
  fun a2 => if a2 = a then v else f a2

def upd3 {α : Type} (f : Nat → Nat → Nat → α) (a b c : Nat) (v : α) :
    Nat → Nat → Nat → α :=
  fun a2 b2 c2 => if a2 = a ∧ b2 = b ∧ c2 = c then v else f a2 b2 c2

structure EngState where
  numTags : Nat
  numTileGroups : Nat → Nat
  tileStatStart : Nat → Nat → Nat → Counter
  tileStatEnd : Nat → Nat → Nat → Counter
  tileGroupStatStart : Nat → List Counter
  tileGroupStatEnd : Nat → List Counter
  tagCredits : Nat → Nat → Nat → Int
  warnings : List (Int × Int × Int)

/-- The local state of `__generate_tile_stats` before the loop over
`traces`.  The per-tag tile tables (`dim_y × dim_x` nested lists in
Python) are modelled as total functions, every access to them being
bounds-checked through `pyIdx` first; the per-tag tile-group rows are kept
as genuine lists of `max_tile_groups` counters because the code tests
their truthiness (`not tile_group_stat_start[cst.tag]`). -/
def initState : EngState where
  numTags := 0
  numTileGroups := fun _ => 0
  tileStatStart := fun _ _ _ => Counter.empty
  tileStatEnd := fun _ _ _ => Counter.empty
  tileGroupStatStart := fun _ => List.replicate maxTileGroups Counter.empty
  tileGroupStatEnd := fun _ => List.replicate maxTileGroups Counter.empty
  tagCredits := fun _ _ _ => 0
  warnings := []

/-- The body of `for op in self.all_ops` in the Start and End branches:
one pass over the schema writing the record into the tile snapshot
(`[op] = trace[op]`, overwrite) and accumulating it into the tile-group
row (`[op] += trace[op]`). -/
def applyOps (ops : List String) (f : String → Int) (tileC rowC : Counter) :
    Counter × Counter :=
  ops.foldl (fun p op => (cset p.1 op (f op), cadd p.2 op (f op))) (tileC, rowC)

/-- The Start branch of the trace loop (source lines 787–797). -/
def stepStart (sch : Schema) (st : EngState) (cst : CudaStatTag) (t : Trace)
    (ry rx : Nat) : EngState :=
  let tg := cst.tag.toNat
  let tgid := cst.tg_id.toNat
  let row := st.tileGroupStatStart tg
  let p := applyOps sch.allOps t.counts (st.tileStatStart tg ry rx)
    (row.getD tgid Counter.empty)
  { st with
    tagCredits := upd3 st.tagCredits tg ry rx (st.tagCredits tg ry rx + 1)
    -- `if (not tile_group_stat_start[cst.tag])`: Python truthiness of the
    -- per-tag row, which is a list
    numTags := if row.isEmpty then st.numTags + 1 else st.numTags
    -- `if (not tile_group_stat_start[cst.tag][cst.tg_id])`: truthiness of
    -- the Counter stored in the row at tg_id
    numTileGroups :=
      if (row.getD tgid Counter.empty).isEmpty then
        upd1 st.numTileGroups tg (st.numTileGroups tg + 1)
      else st.numTileGroups
    tileStatStart := upd3 st.tileStatStart tg ry rx p.1
    tileGroupStatStart := upd1 st.tileGroupStatStart tg (row.set tgid p.2) }

/-- The End branch of the trace loop (source lines 799–806); the printed
missing-start warning is collected as the tuple
`(cst.tag, relative_x, relative_y)` it formats. -/
def stepEnd (sch : Schema) (st : EngState) (cst : CudaStatTag) (t : Trace)
    (relY relX : Int) (ry rx : Nat) : EngState :=
  let tg := cst.tag.toNat
  let tgid := cst.tg_id.toNat
  let newCredit := st.tagCredits tg ry rx - 1
  let row := st.tileGroupStatEnd tg
  let p := applyOps sch.allOps t.counts (st.tileStatEnd tg ry rx)
    (row.getD tgid Counter.empty)
  { st with
    tagCredits := upd3 st.tagCredits tg ry rx newCredit
    warnings := if newCredit < 0 then st.warnings ++ [(cst.tag, relX, relY)]
      else st.warnings
    tileStatEnd := upd3 st.tileStatEnd tg ry rx p.1
    tileGroupStatEnd := upd1 st.tileGroupStatEnd tg (row.set tgid p.2) }

/-- One iteration of `for trace in traces` in `__generate_tile_stats`:
compute the origin-relative coordinates, decode the tag (fatal on an
invalid eventKind), then dispatch on Start/End (tile indexing may raise
`IndexError` for an out-of-range relative coordinate); Stat records fall
through untouched. -/
def step (sch : Schema) (dims : Dims) (st : EngState) (t : Trace) :
    Option EngState :=
  let relY : Int := t.y - BSG_ORIGIN_Y
  let relX : Int := t.x - BSG_ORIGIN_X
  match mkCudaStatTag t.tagRaw with
  | none => none
  | some cst =>
    if cst.isStart then
      match pyIdx dims.dimY relY, pyIdx dims.dimX relX with
      | some ry, some rx => some (stepStart sch st cst t ry rx)
      | _, _ => none
    else if cst.isEnd then
      match pyIdx dims.dimY relY, pyIdx dims.dimX relX with
      | some ry, some rx => some (stepEnd sch st cst t relY relX ry rx)
      | _, _ => none
    else some st

/-- The whole trace loop of `__generate_tile_stats`, from the freshly
initialised local state. -/
def run (sch : Schema) (dims : Dims) (traces : List Trace) : Option EngState :=
  traces.foldlM (step sch dims) initState

/-! ## The readout phase after the trace loop -/

/-- The totals loops (source lines 828–833 and 838–843): fold the
instruction, stall and miss category sums into the same counter as
synthetic entries, in that order. -/
def addTotals (sch : Schema) (c : Counter) : Counter :=
  accTotal (accTotal (accTotal c "instr_total" sch.instrs)
    "stall_total" sch.stalls) "miss_total" sch.misses

/-- `tile_stat[tag][y][x]` after `__generate_tile_stats` finishes: the
Counter subtraction end − start (line 817), then the category totals
folded in. -/
def tileStatFinal (sch : Schema) (st : EngState) (tag y x : Nat) : Counter :=
  addTotals sch (csub (st.tileStatEnd tag y x) (st.tileStatStart tag y x))

/-- `tile_group_stat[tag][tg_id]` after `__generate_tile_stats` finishes:
the subtraction (line 822) and the totals are applied only for
`tg_id in range(num_tile_groups[tag])`; every other entry keeps its
initial empty Counter. -/
def tileGroupStatFinal (sch : Schema) (st : EngState) (tag tgid : Nat) :
    Counter :=
  if tgid < st.numTileGroups tag then
    addTotals sch (csub ((st.tileGroupStatEnd tag).getD tgid Counter.empty)
      ((st.tileGroupStatStart tag).getD tgid Counter.empty))
  else Counter.empty

/-- `__generate_manycore_stats_all`: for every tag, accumulate the final
per-tile counters over the whole grid, one `+=` per operation of the
extended operation list. -/
def manycoreStatAll (sch : Schema) (dims : Dims)
    (tileStat : Nat → Nat → Nat → Counter) (tag : Nat) : Counter :=
  (List.range dims.dimY).foldl (fun c y =>
    (List.range dims.dimX).foldl (fun c x =>
      sch.allOpsFull.foldl (fun c op => cadd c op (cget (tileStat tag y x) op))
        c) c) Counter.empty

/-- The sum over all grid coordinates used by the rollup claims. -/
def gridSum (dims : Dims) (g : Nat → Nat → Int) : Int :=
  ((List.range dims.dimY).map (fun y =>
    ((List.range dims.dimX).map (fun x => g y x)).sum)).sum

/-! ## Basic lemmas about the engine -/

theorem upd1_self {α : Type} (f : Nat → α) (a : Nat) (v : α) :
    upd1 f a v a = v := by
  simp [upd1]

theorem upd1_ne {α : Type} (f : Nat → α) {a a2 : Nat} (v : α) (h : a2 ≠ a) :
    upd1 f a v a2 = f a2 := by
  simp [upd1, h]

theorem upd3_self {α : Type} (f : Nat → Nat → Nat → α) (a b c : Nat) (v : α) :
    upd3 f a b c v a b c = v := by
  simp [upd3]

theorem upd3_ne {α : Type} (f : Nat → Nat → Nat → α) {a b c a2 b2 c2 : Nat}
    (v : α) (h : ¬(a2 = a ∧ b2 = b ∧ c2 = c)) :
    upd3 f a b c v a2 b2 c2 = f a2 b2 c2 := by
  simp only [upd3, if_neg h]

theorem applyOps_eq (ops : List String) (f : String → Int) (a b : Counter) :
    applyOps ops f a b = (setAll a ops f, addAll b ops f) := by
  induction ops generalizing a b with
  | nil => rfl
  | cons o l ih =>
    show applyOps l f (cset a o (f o)) (cadd b o (f o)) = _
    rw [ih, setAll_cons, addAll_cons]

def runFrom (sch : Schema) (dims : Dims) (st : EngState)
    (traces : List Trace) : Option EngState :=
  traces.foldlM (step sch dims) st

theorem run_eq_runFrom (sch : Schema) (dims : Dims) (traces : List Trace) :
    run sch dims traces = runFrom sch dims initState traces := rfl

theorem runFrom_nil (sch : Schema) (dims : Dims) (st : EngState) :
    runFrom sch dims st [] = some st := rfl

theorem runFrom_cons (sch : Schema) (dims : Dims) (st : EngState) (t : Trace)
    (l : List Trace) :
    runFrom sch dims st (t :: l)
      = (step sch dims st t).bind (fun st2 => runFrom sch dims st2 l) := by
  cases h : step sch dims st t <;>
    simp [runFrom, List.foldlM_cons, h]

theorem runFrom_append (sch : Schema) (dims : Dims) (st : EngState)
    (l1 l2 : List Trace) :
    runFrom sch dims st (l1 ++ l2)
      = (runFrom sch dims st l1).bind (fun s => runFrom sch dims s l2) := by
  induction l1 generalizing st with
  | nil => simp [runFrom_nil]
  | cons t l ih =>
    rw [List.cons_append, runFrom_cons, runFrom_cons]
    cases h : step sch dims st t
    · simp
    · simp [ih]

/-- Projections of the Start branch. -/
theorem stepStart_tileStatStart (sch : Schema) (st : EngState)
    (cst : CudaStatTag) (t : Trace) (ry rx : Nat) :
    (stepStart sch st cst t ry rx).tileStatStart
      = upd3 st.tileStatStart cst.tag.toNat ry rx
          (applyOps sch.allOps t.counts
            (st.tileStatStart cst.tag.toNat ry rx)
            ((st.tileGroupStatStart cst.tag.toNat).getD cst.tg_id.toNat
              Counter.empty)).1 := rfl

theorem stepStart_tileStatEnd (sch : Schema) (st : EngState)
    (cst : CudaStatTag) (t : Trace) (ry rx : Nat) :
    (stepStart sch st cst t ry rx).tileStatEnd = st.tileStatEnd := rfl

theorem stepStart_tileGroupStatStart (sch : Schema) (st : EngState)
    (cst : CudaStatTag) (t : Trace) (ry rx : Nat) :
    (stepStart sch st cst t ry rx).tileGroupStatStart
      = upd1 st.tileGroupStatStart cst.tag.toNat
          ((st.tileGroupStatStart cst.tag.toNat).set cst.tg_id.toNat
            (applyOps sch.allOps t.counts
              (st.tileStatStart cst.tag.toNat ry rx)
              ((st.tileGroupStatStart cst.tag.toNat).getD cst.tg_id.toNat
                Counter.empty)).2) := rfl

theorem stepStart_tileGroupStatEnd (sch : Schema) (st : EngState)
    (cst : CudaStatTag) (t : Trace) (ry rx : Nat) :
    (stepStart sch st cst t ry rx).tileGroupStatEnd = st.tileGroupStatEnd := rfl

theorem stepStart_numTags (sch : Schema) (st : EngState) (cst : CudaStatTag)
    (t : Trace) (ry rx : Nat) :
    (stepStart sch st cst t ry rx).numTags
      = if (st.tileGroupStatStart cst.tag.toNat).isEmpty then st.numTags + 1
        else st.numTags := rfl

theorem stepStart_numTileGroups (sch : Schema) (st : EngState)
    (cst : CudaStatTag) (t : Trace) (ry rx : Nat) :
    (stepStart sch st cst t ry rx).numTileGroups
      = if ((st.tileGroupStatStart cst.tag.toNat).getD cst.tg_id.toNat
            Counter.empty).isEmpty then
          upd1 st.numTileGroups cst.tag.toNat
            (st.numTileGroups cst.tag.toNat + 1)
        else st.numTileGroups := rfl

/-- Projections of the End branch. -/
theorem stepEnd_tileStatEnd (sch : Schema) (st : EngState)
    (cst : CudaStatTag) (t : Trace) (relY relX : Int) (ry rx : Nat) :
    (stepEnd sch st cst t relY relX ry rx).tileStatEnd
      = upd3 st.tileStatEnd cst.tag.toNat ry rx
          (applyOps sch.allOps t.counts
            (st.tileStatEnd cst.tag.toNat ry rx)
            ((st.tileGroupStatEnd cst.tag.toNat).getD cst.tg_id.toNat
              Counter.empty)).1 := rfl

theorem stepEnd_tileStatStart (sch : Schema) (st : EngState)
    (cst : CudaStatTag) (t : Trace) (relY relX : Int) (ry rx : Nat) :
    (stepEnd sch st cst t relY relX ry rx).tileStatStart = st.tileStatStart := rfl

theorem stepEnd_tileGroupStatEnd (sch : Schema) (st : EngState)
    (cst : CudaStatTag) (t : Trace) (relY relX : Int) (ry rx : Nat) :
    (stepEnd sch st cst t relY relX ry rx).tileGroupStatEnd
      = upd1 st.tileGroupStatEnd cst.tag.toNat
          ((st.tileGroupStatEnd cst.tag.toNat).set cst.tg_id.toNat
            (applyOps sch.allOps t.counts
              (st.tileStatEnd cst.tag.toNat ry rx)
              ((st.tileGroupStatEnd cst.tag.toNat).getD cst.tg_id.toNat
                Counter.empty)).2) := rfl

theorem stepEnd_tileGroupStatStart (sch : Schema) (st : EngState)
    (cst : CudaStatTag) (t : Trace) (relY relX : Int) (ry rx : Nat) :
    (stepEnd sch st cst t relY relX ry rx).tileGroupStatStart
      = st.tileGroupStatStart := rfl

theorem stepEnd_numTags (sch : Schema) (st : EngState) (cst : CudaStatTag)
    (t : Trace) (relY relX : Int) (ry rx : Nat) :
    (stepEnd sch st cst t relY relX ry rx).numTags = st.numTags := rfl

theorem stepEnd_numTileGroups (sch : Schema) (st : EngState)
    (cst : CudaStatTag) (t : Trace) (relY relX : Int) (ry rx : Nat) :
    (stepEnd sch st cst t relY relX ry rx).numTileGroups = st.numTileGroups := rfl

/-- Inversion of a successful `step`. -/
theorem step_inv (sch : Schema) (dims : Dims) (st : EngState) (t : Trace)
    (st' : EngState) (h : step sch dims st t = some st') :
    ∃ cst, mkCudaStatTag t.tagRaw = some cst ∧
      ((∃ ry rx, cst.isStart = true
          ∧ pyIdx dims.dimY (t.y - BSG_ORIGIN_Y) = some ry
          ∧ pyIdx dims.dimX (t.x - BSG_ORIGIN_X) = some rx
          ∧ st' = stepStart sch st cst t ry rx)
       ∨ (∃ ry rx, cst.isStart = false ∧ cst.isEnd = true
          ∧ pyIdx dims.dimY (t.y - BSG_ORIGIN_Y) = some ry
          ∧ pyIdx dims.dimX (t.x - BSG_ORIGIN_X) = some rx
          ∧ st' = stepEnd sch st cst t (t.y - BSG_ORIGIN_Y)
              (t.x - BSG_ORIGIN_X) ry rx)
       ∨ (cst.isStart = false ∧ cst.isEnd = false ∧ st' = st)) := by
  cases hmk : mkCudaStatTag t.tagRaw with
  | none =>
    simp only [step, hmk] at h
    exact absurd h (by simp)
  | some cst =>
    simp only [step, hmk] at h
    refine ⟨cst, rfl, ?_⟩
    by_cases hs : cst.isStart = true
    · rw [if_pos hs] at h
      cases hy : pyIdx dims.dimY (t.y - BSG_ORIGIN_Y) with
      | none => rw [hy] at h; exact absurd h (by simp)
      | some ry =>
        rw [hy] at h
        cases hx : pyIdx dims.dimX (t.x - BSG_ORIGIN_X) with
        | none => rw [hx] at h; exact absurd h (by simp)
        | some rx =>
          rw [hx] at h
          exact Or.inl ⟨ry, rx, hs, rfl, rfl, (Option.some.inj h).symm⟩
    · rw [if_neg hs] at h
      rw [Bool.not_eq_true] at hs
      by_cases he : cst.isEnd = true
      · rw [if_pos he] at h
        cases hy : pyIdx dims.dimY (t.y - BSG_ORIGIN_Y) with
        | none => rw [hy] at h; exact absurd h (by simp)
        | some ry =>
          rw [hy] at h
          cases hx : pyIdx dims.dimX (t.x - BSG_ORIGIN_X) with
          | none => rw [hx] at h; exact absurd h (by simp)
          | some rx =>
            rw [hx] at h
            exact Or.inr (Or.inl ⟨ry, rx, hs, he, rfl, rfl,
              (Option.some.inj h).symm⟩)
      · rw [if_neg he] at h
        rw [Bool.not_eq_true] at he
        exact Or.inr (Or.inr ⟨hs, he, (Option.some.inj h).symm⟩)

/-- A record is a Start record for the tile `(tag, ry, rx)`
(origin-relative, after Python index normalisation). -/
def IsStartAt (dims : Dims) (t : Trace) (tag ry rx : Nat) : Bool :=
  match mkCudaStatTag t.tagRaw with
  | none => false
  | some cst => cst.isStart && cst.tag.toNat == tag
      && pyIdx dims.dimY (t.y - BSG_ORIGIN_Y) == some ry
      && pyIdx dims.dimX (t.x - BSG_ORIGIN_X) == some rx

/-- A record is an End record for the tile `(tag, ry, rx)`. -/
def IsEndAt (dims : Dims) (t : Trace) (tag ry rx : Nat) : Bool :=
  match mkCudaStatTag t.tagRaw with
  | none => false
  | some cst => cst.isEnd && cst.tag.toNat == tag
      && pyIdx dims.dimY (t.y - BSG_ORIGIN_Y) == some ry
      && pyIdx dims.dimX (t.x - BSG_ORIGIN_X) == some rx

/-- A record writes into the pending snapshots of tile `(tag, ry, rx)`. -/
def TouchesTile (dims : Dims) (t : Trace) (tag ry rx : Nat) : Bool :=
  match mkCudaStatTag t.tagRaw with
  | none => false
  | some cst => (cst.isStart || cst.isEnd) && cst.tag.toNat == tag
      && pyIdx dims.dimY (t.y - BSG_ORIGIN_Y) == some ry
      && pyIdx dims.dimX (t.x - BSG_ORIGIN_X) == some rx

/-- A step by a record that does not touch a tile leaves both pending
snapshots of that tile unchanged. -/
theorem step_frame (sch : Schema) (dims : Dims) (st : EngState) (t : Trace)
    (st' : EngState) (tag ry rx : Nat)
    (h : step sch dims st t = some st')
    (ht : TouchesTile dims t tag ry rx = false) :
    st'.tileStatStart tag ry rx = st.tileStatStart tag ry rx
    ∧ st'.tileStatEnd tag ry rx = st.tileStatEnd tag ry rx := by
  obtain ⟨cst, hmk, hcase⟩ := step_inv sch dims st t st' h
  rcases hcase with ⟨ry2, rx2, hs, hy, hx, rfl⟩
    | ⟨ry2, rx2, hs, he, hy, hx, rfl⟩ | ⟨hs, he, rfl⟩
  · have hne : ¬(tag = cst.tag.toNat ∧ ry = ry2 ∧ rx = rx2) := by
      rintro ⟨h1, h2, h3⟩
      subst h1; subst h2; subst h3
      simp [TouchesTile, hmk, hs, hy, hx] at ht
    refine ⟨?_, by rw [stepStart_tileStatEnd]⟩
    rw [stepStart_tileStatStart]
    exact upd3_ne _ _ hne
  · have hne : ¬(tag = cst.tag.toNat ∧ ry = ry2 ∧ rx = rx2) := by
      rintro ⟨h1, h2, h3⟩
      subst h1; subst h2; subst h3
      simp [TouchesTile, hmk, hs, he, hy, hx] at ht
    refine ⟨by rw [stepEnd_tileStatStart], ?_⟩
    rw [stepEnd_tileStatEnd]
    exact upd3_ne _ _ hne
  · exact ⟨rfl, rfl⟩

/-- Frame over a whole segment of non-touching records. -/
theorem runFrom_frame (sch : Schema) (dims : Dims) (st st' : EngState)
    (l : List Trace) (tag ry rx : Nat)
    (h : runFrom sch dims st l = some st')
    (ht : ∀ t ∈ l, TouchesTile dims t tag ry rx = false) :
    st'.tileStatStart tag ry rx = st.tileStatStart tag ry rx
    ∧ st'.tileStatEnd tag ry rx = st.tileStatEnd tag ry rx := by
  induction l generalizing st with
  | nil => rw [runFrom_nil] at h; rw [← Option.some.inj h]; exact ⟨rfl, rfl⟩
  | cons t l ih =>
    rw [runFrom_cons] at h
    cases hstep : step sch dims st t with
    | none => rw [hstep] at h; exact absurd h (by simp)
    | some st2 =>
      rw [hstep] at h
      simp only [Option.bind] at h
      obtain ⟨h1, h2⟩ := step_frame sch dims st t st2 tag ry rx hstep
        (ht t (List.mem_cons_self t l))
      obtain ⟨h3, h4⟩ := ih st2 h (fun t2 ht2 => ht t2 (List.mem_cons_of_mem t ht2))
      exact ⟨h3.trans h1, h4.trans h2⟩

/-- Effect of a Start record on its own tile: the pending-Start snapshot
is overwritten with the record's full counter table, the pending-End
snapshot is untouched. -/
theorem step_start_effect (sch : Schema) (dims : Dims) (st : EngState)
    (t : Trace) (st' : EngState) (tag ry rx : Nat)
    (h : step sch dims st t = some st')
    (hs : IsStartAt dims t tag ry rx = true) :
    st'.tileStatStart tag ry rx
      = setAll (st.tileStatStart tag ry rx) sch.allOps t.counts
    ∧ st'.tileStatEnd tag ry rx = st.tileStatEnd tag ry rx := by
  obtain ⟨cst, hmk, hcase⟩ := step_inv sch dims st t st' h
  rw [IsStartAt] at hs
  rw [hmk] at hs
  simp only [Bool.and_eq_true, beq_iff_eq] at hs
  obtain ⟨⟨⟨hstart, htag⟩, hy⟩, hx⟩ := hs
  rcases hcase with ⟨ry2, rx2, hs2, hy2, hx2, rfl⟩
    | ⟨ry2, rx2, hs2, he2, hy2, hx2, rfl⟩ | ⟨hs2, he2, rfl⟩
  · rw [hy2] at hy
    rw [hx2] at hx
    obtain rfl : ry2 = ry := Option.some.inj hy
    obtain rfl : rx2 = rx := Option.some.inj hx
    subst htag
    rw [stepStart_tileStatStart, stepStart_tileStatEnd]
    rw [upd3_self, applyOps_eq]
    exact ⟨rfl, rfl⟩
  · rw [hs2] at hstart; exact absurd hstart (by simp)
  · rw [hs2] at hstart; exact absurd hstart (by simp)

/-- Effect of an End record on its own tile. -/
theorem step_end_effect (sch : Schema) (dims : Dims) (st : EngState)
    (t : Trace) (st' : EngState) (tag ry rx : Nat)
    (h : step sch dims st t = some st')
    (he : IsEndAt dims t tag ry rx = true) :
    st'.tileStatEnd tag ry rx
      = setAll (st.tileStatEnd tag ry rx) sch.allOps t.counts
    ∧ st'.tileStatStart tag ry rx = st.tileStatStart tag ry rx := by
  obtain ⟨cst, hmk, hcase⟩ := step_inv sch dims st t st' h
  rw [IsEndAt] at he
  rw [hmk] at he
  simp only [Bool.and_eq_true, beq_iff_eq] at he
  obtain ⟨⟨⟨hend, htag⟩, hy⟩, hx⟩ := he
  rcases hcase with ⟨ry2, rx2, hs2, hy2, hx2, rfl⟩
    | ⟨ry2, rx2, hs2, he2, hy2, hx2, rfl⟩ | ⟨hs2, he2, rfl⟩
  · -- a Start record cannot be an End record
    exfalso
    have : cst.type = StatType.START := by
      have := hs2
      rw [CudaStatTag.isStart, beq_iff_eq] at this
      exact this
    rw [CudaStatTag.isEnd, beq_iff_eq] at hend
    rw [this] at hend
    exact absurd hend (by simp)
  · rw [hy2] at hy
    rw [hx2] at hx
    obtain rfl : ry2 = ry := Option.some.inj hy
    obtain rfl : rx2 = rx := Option.some.inj hx
    subst htag
    rw [stepEnd_tileStatEnd, stepEnd_tileStatStart]
    rw [upd3_self, applyOps_eq]
    exact ⟨rfl, rfl⟩
  · rw [he2] at hend; exact absurd hend (by simp)

/-! ## Readout lemmas -/

theorem op_ne_totals {sch : Schema} {op : String} (hok : SchemaOK sch)
    (hop : op ∈ sch.allOps) :
    op ≠ "instr_total" ∧ op ≠ "stall_total" ∧ op ≠ "miss_total" :=
  ⟨fun h => hok.1 (h ▸ hop), fun h => hok.2.1 (h ▸ hop),
   fun h => hok.2.2 (h ▸ hop)⟩

theorem instrs_subset_allOps (sch : Schema) {i : String}
    (hi : i ∈ sch.instrs) : i ∈ sch.allOps := by
  simp [Schema.allOps, hi]

theorem cget_addTotals_ne (sch : Schema) (c : Counter) {k : String}
    (h1 : k ≠ "instr_total") (h2 : k ≠ "stall_total")
    (h3 : k ≠ "miss_total") :
    cget (addTotals sch c) k = cget c k := by
  rw [addTotals, cget_accTotal_ne _ _ _ h3, cget_accTotal_ne _ _ _ h2,
    cget_accTotal_ne _ _ _ h1]

theorem cget_addTotals_instrTotal (sch : Schema) (c : Counter)
    (hok : SchemaOK sch) :
    cget (addTotals sch c) "instr_total"
      = cget c "instr_total" + (sch.instrs.map (cget c)).sum := by
  have hni : "instr_total" ∉ sch.instrs :=
    fun h => hok.1 (instrs_subset_allOps sch h)
  rw [addTotals, cget_accTotal_ne _ _ _ (by decide),
    cget_accTotal_ne _ _ _ (by decide), cget_accTotal_self _ _ _ hni]

/-- Reading a schema operation from the finished per-tile counter: the
totals folds do not disturb it, so it is the clamped Counter difference of
the pending snapshots. -/
theorem cget_tileStatFinal (sch : Schema) (st : EngState) (tag y x : Nat)
    (op : String) (hop : op ∈ sch.allOps) (hok : SchemaOK sch) :
    cget (tileStatFinal sch st tag y x) op
      = max (cget (st.tileStatEnd tag y x) op
          - cget (st.tileStatStart tag y x) op) 0 := by
  obtain ⟨h1, h2, h3⟩ := op_ne_totals hok hop
  rw [tileStatFinal, cget_addTotals_ne sch _ h1 h2 h3, cget_csub]

/-! ## The exact-pair scenario -/

/-- After a stream in which the tile `(tag, ry, rx)` sees exactly one
Start (record `s`) followed by exactly one End (record `e`), its pending
snapshots hold exactly those two records. -/
theorem exactPair_tables (sch : Schema) (dims : Dims)
    (pre mid post : List Trace) (s e : Trace) (st : EngState)
    (tag ry rx : Nat)
    (hrun : run sch dims (pre ++ s :: (mid ++ e :: post)) = some st)
    (hs : IsStartAt dims s tag ry rx = true)
    (he : IsEndAt dims e tag ry rx = true)
    (hpre : ∀ t ∈ pre, TouchesTile dims t tag ry rx = false)
    (hmid : ∀ t ∈ mid, TouchesTile dims t tag ry rx = false)
    (hpost : ∀ t ∈ post, TouchesTile dims t tag ry rx = false) :
    st.tileStatStart tag ry rx = setAll Counter.empty sch.allOps s.counts
    ∧ st.tileStatEnd tag ry rx = setAll Counter.empty sch.allOps e.counts := by
  rw [run_eq_runFrom, runFrom_append] at hrun
  cases h1 : runFrom sch dims initState pre with
  | none => rw [h1] at hrun; exact absurd hrun (by simp)
  | some st1 =>
    rw [h1] at hrun
    simp only [Option.bind] at hrun
    rw [runFrom_cons] at hrun
    cases h2 : step sch dims st1 s with
    | none => rw [h2] at hrun; exact absurd hrun (by simp)
    | some st2 =>
      rw [h2] at hrun
      simp only [Option.bind] at hrun
      rw [runFrom_append] at hrun
      cases h3 : runFrom sch dims st2 mid with
      | none => rw [h3] at hrun; exact absurd hrun (by simp)
      | some st3 =>
        rw [h3] at hrun
        simp only [Option.bind] at hrun
        rw [runFrom_cons] at hrun
        cases h4 : step sch dims st3 e with
        | none => rw [h4] at hrun; exact absurd hrun (by simp)
        | some st4 =>
          rw [h4] at hrun
          simp only [Option.bind] at hrun
          have f1 := runFrom_frame sch dims initState st1 pre tag ry rx h1 hpre
          have e1 := step_start_effect sch dims st1 s st2 tag ry rx h2 hs
          have f2 := runFrom_frame sch dims st2 st3 mid tag ry rx h3 hmid
          have e2 := step_end_effect sch dims st3 e st4 tag ry rx h4 he
          have f3 := runFrom_frame sch dims st4 st post tag ry rx hrun hpost
          constructor
          · rw [f3.1, e2.2, f2.1, e1.1, f1.1]; rfl
          · rw [f3.2, e2.1, f2.2, e1.2, f1.2]; rfl

/-- **C1** (amended): with exactly one Start (counters `S`) then one End
(counters `E`) for a fixed `(smallTag, coreY, coreX)`, the computed tile
delta is `max (E − S) 0` element-wise — Python `Counter` subtraction drops
non-positive entries, so a negative difference reads back as 0 (it is
`E − S` whenever `E ≥ S` element-wise) — and the stored `instr_total`
equals the sum of the stored delta's instruction fields. -/
theorem tile_exact_pair_delta (sch : Schema) (dims : Dims)
    (pre mid post : List Trace) (s e : Trace) (st : EngState)
    (tag ry rx : Nat) (op : String)
    (hrun : run sch dims (pre ++ s :: (mid ++ e :: post)) = some st)
    (hs : IsStartAt dims s tag ry rx = true)
    (he : IsEndAt dims e tag ry rx = true)
    (hpre : ∀ t ∈ pre, TouchesTile dims t tag ry rx = false)
    (hmid : ∀ t ∈ mid, TouchesTile dims t tag ry rx = false)
    (hpost : ∀ t ∈ post, TouchesTile dims t tag ry rx = false)
    (hop : op ∈ sch.allOps) (hok : SchemaOK sch) :
    cget (tileStatFinal sch st tag ry rx) op
      = max (e.counts op - s.counts op) 0
    ∧ cget (tileStatFinal sch st tag ry rx) "instr_total"
      = (sch.instrs.map
          (fun i => cget (tileStatFinal sch st tag ry rx) i)).sum := by
  obtain ⟨hS, hE⟩ := exactPair_tables sch dims pre mid post s e st tag ry rx
    hrun hs he hpre hmid hpost
  constructor
  · rw [cget_tileStatFinal sch st tag ry rx op hop hok, hS, hE,
      cget_setAll, cget_setAll, if_pos hop, if_pos hop]
  · unfold tileStatFinal
    rw [cget_addTotals_instrTotal sch _ hok]
    have h0 : cget (csub (st.tileStatEnd tag ry rx)
        (st.tileStatStart tag ry rx)) "instr_total" = 0 := by
      rw [cget_csub, hS, hE, cget_setAll, cget_setAll,
        if_neg hok.1, if_neg hok.1, cget_empty]
      omega
    rw [h0, zero_add]
    apply congrArg
    apply List.map_congr_left
    intro i hi
    obtain ⟨g1, g2, g3⟩ := op_ne_totals hok (instrs_subset_allOps sch hi)
    rw [cget_addTotals_ne sch _ g1 g2 g3]

/-- **C2** (amended): an operation whose End count is smaller than its
Start count does not pass the negative difference through: Python
`Counter` subtraction drops the entry, and the stored delta reads 0. -/
theorem tile_delta_clamped (sch : Schema) (dims : Dims)
    (pre mid post : List Trace) (s e : Trace) (st : EngState)
    (tag ry rx : Nat) (op : String)
    (hrun : run sch dims (pre ++ s :: (mid ++ e :: post)) = some st)
    (hs : IsStartAt dims s tag ry rx = true)
    (he : IsEndAt dims e tag ry rx = true)
    (hpre : ∀ t ∈ pre, TouchesTile dims t tag ry rx = false)
    (hmid : ∀ t ∈ mid, TouchesTile dims t tag ry rx = false)
    (hpost : ∀ t ∈ post, TouchesTile dims t tag ry rx = false)
    (hop : op ∈ sch.allOps) (hok : SchemaOK sch)
    (hlt : e.counts op < s.counts op) :
    cget (tileStatFinal sch st tag ry rx) op = 0 := by
  obtain ⟨hS, hE⟩ := exactPair_tables sch dims pre mid post s e st tag ry rx
    hrun hs he hpre hmid hpost
  rw [cget_tileStatFinal sch st tag ry rx op hop hok, hS, hE,
    cget_setAll, cget_setAll, if_pos hop, if_pos hop]
  omega

/-- **C7**: a Start record for a tile overwrites that tile's pending-Start
snapshot with its own full counter table; in particular a second Start
before any matching End makes the pending snapshot equal the second
record's table. -/
theorem start_overwrites_pending (sch : Schema) (dims : Dims)
    (pre mid : List Trace) (s1 s2 : Trace) (st : EngState)
    (tag ry rx : Nat) (op : String)
    (hrun : run sch dims (pre ++ s1 :: (mid ++ [s2])) = some st)
    (hs1 : IsStartAt dims s1 tag ry rx = true)
    (hs2 : IsStartAt dims s2 tag ry rx = true)
    (hmid : ∀ t ∈ mid, TouchesTile dims t tag ry rx = false)
    (hop : op ∈ sch.allOps) :
    cget (st.tileStatStart tag ry rx) op = s2.counts op := by
  rw [run_eq_runFrom, runFrom_append] at hrun
  cases h1 : runFrom sch dims initState pre with
  | none => rw [h1] at hrun; exact absurd hrun (by simp)
  | some st1 =>
    rw [h1] at hrun
    simp only [Option.bind] at hrun
    rw [runFrom_cons] at hrun
    cases h2 : step sch dims st1 s1 with
    | none => rw [h2] at hrun; exact absurd hrun (by simp)
    | some st2 =>
      rw [h2] at hrun
      simp only [Option.bind] at hrun
      rw [runFrom_append] at hrun
      cases h3 : runFrom sch dims st2 mid with
      | none => rw [h3] at hrun; exact absurd hrun (by simp)
      | some st3 =>
        rw [h3] at hrun
        simp only [Option.bind] at hrun
        rw [runFrom_cons] at hrun
        cases h4 : step sch dims st3 s2 with
        | none => rw [h4] at hrun; exact absurd hrun (by simp)
        | some st4 =>
          rw [h4] at hrun
          simp only [Option.bind, runFrom_nil] at hrun
          obtain heq : st4 = st := Option.some.inj hrun
          have e2 := step_start_effect sch dims st3 s2 st4 tag ry rx h4 hs2
          rw [← heq, e2.1, cget_setAll, if_pos hop]

/-! ## Concrete scenarios -/

/-- A minimal schema: the three bookkeeping columns plus a `cycle` stat
(all land in `stats`, none carries a category prefix). -/
def schemaCyc : Schema := ⟨["tag", "x", "y", "cycle"], [], [], []⟩

/-- A schema with one instruction column. -/
def schemaInstr : Schema := ⟨["tag", "x", "y"], ["instr_add"], [], []⟩

def dims11 : Dims := ⟨1, 1⟩
def dims21 : Dims := ⟨2, 1⟩

/-- A record with the given raw tag, `y` coordinate and `cycle` count
(`x` is 0). -/
def cycTrace (tagRaw y cyc : Int) : Trace :=
  ⟨fun k => if k = "tag" then tagRaw else if k = "y" then y
    else if k = "cycle" then cyc else 0⟩

/-- A record with the given raw tag, `y` coordinate and `instr_add` count
(`x` is 0). -/
def instrTrace (tagRaw y v : Int) : Trace :=
  ⟨fun k => if k = "tag" then tagRaw else if k = "y" then y
    else if k = "instr_add" then v else 0⟩

/-- Raw tag with eventKind 1 (Start) and every other field 0. -/
def START_RAW : Int := 2 ^ 30

/-- Raw tag with eventKind 2 (End) and every other field 0. -/
def END_RAW : Int := 2 ^ 31

/-- **C1, counterexample**: one Start with `cycle = 5` then one End with
`cycle = 3` for the same key; the claim as stated demands the delta
`3 − 5 = −2`, but the engine stores 0 for that operation. -/
theorem tile_exact_pair_delta_cex :
    (run schemaCyc dims11 [cycTrace START_RAW 1 5, cycTrace END_RAW 1 3]).map
      (fun st => cget (tileStatFinal schemaCyc st 0 0 0) "cycle") = some 0
    ∧ ¬ ((run schemaCyc dims11
        [cycTrace START_RAW 1 5, cycTrace END_RAW 1 3]).map
      (fun st => cget (tileStatFinal schemaCyc st 0 0 0) "cycle")
        = some ((3 : Int) - 5)) :=
  ⟨by decide, by decide⟩

def exactPairState : EngState :=
  (run schemaInstr dims11
    [instrTrace START_RAW 1 5, instrTrace END_RAW 1 15]).getD initState

/-- Witness for the amended exact-pair theorem: 1×1 grid, Start
`instr_add = 5`, End `instr_add = 15`; delta 10 and instr_total 10. -/
theorem tile_exact_pair_delta_witness :
    cget (tileStatFinal schemaInstr exactPairState 0 0 0) "instr_add" = 10
    ∧ cget (tileStatFinal schemaInstr exactPairState 0 0 0) "instr_total"
        = 10 := by
  have hrun : run schemaInstr dims11
      ([] ++ instrTrace START_RAW 1 5 :: ([] ++ instrTrace END_RAW 1 15 :: []))
      = some exactPairState := rfl
  have h := tile_exact_pair_delta schemaInstr dims11 [] [] []
    (instrTrace START_RAW 1 5) (instrTrace END_RAW 1 15) exactPairState
    0 0 0 "instr_add" hrun (by decide) (by decide)
    (fun t ht => absurd ht (List.not_mem_nil t))
    (fun t ht => absurd ht (List.not_mem_nil t))
    (fun t ht => absurd ht (List.not_mem_nil t))
    (by decide) ⟨by decide, by decide, by decide⟩
  refine ⟨?_, ?_⟩
  · rw [h.1]; decide
  · rw [h.2]; decide

/-- **C2, counterexample**: Start `cycle = 7` then End `cycle = 4`; the
negative difference is not passed through — the stored delta reads 0. -/
theorem tile_delta_clamped_cex :
    (run schemaCyc dims11 [cycTrace START_RAW 1 7, cycTrace END_RAW 1 4]).map
      (fun st => cget (tileStatFinal schemaCyc st 0 0 0) "cycle") = some 0
    ∧ (0 : Int) ≠ 4 - 7 :=
  ⟨by decide, by decide⟩

def clampedState : EngState :=
  (run schemaCyc dims11
    [cycTrace START_RAW 1 7, cycTrace END_RAW 1 4]).getD initState

/-- Witness for the amended clamping theorem at Start `cycle = 7`,
End `cycle = 4`. -/
theorem tile_delta_clamped_witness :
    cget (tileStatFinal schemaCyc clampedState 0 0 0) "cycle" = 0 := by
  have hrun : run schemaCyc dims11
      ([] ++ cycTrace START_RAW 1 7 :: ([] ++ cycTrace END_RAW 1 4 :: []))
      = some clampedState := rfl
  exact tile_delta_clamped schemaCyc dims11 [] [] []
    (cycTrace START_RAW 1 7) (cycTrace END_RAW 1 4) clampedState 0 0 0 "cycle"
    hrun (by decide) (by decide)
    (fun t ht => absurd ht (List.not_mem_nil t))
    (fun t ht => absurd ht (List.not_mem_nil t))
    (fun t ht => absurd ht (List.not_mem_nil t))
    (by decide) ⟨by decide, by decide, by decide⟩ (by decide)

def overwriteState : EngState :=
  (run schemaCyc dims11
    [cycTrace START_RAW 1 5, cycTrace START_RAW 1 9]).getD initState

/-- Witness for the overwrite theorem: two Starts `cycle = 5` then
`cycle = 9`; the pending snapshot holds 9. -/
theorem start_overwrites_pending_witness :
    cget (overwriteState.tileStatStart 0 0 0) "cycle" = 9 := by
  have hrun : run schemaCyc dims11
      ([] ++ cycTrace START_RAW 1 5 :: ([] ++ [cycTrace START_RAW 1 9]))
      = some overwriteState := rfl
  have h := start_overwrites_pending schemaCyc dims11 [] []
    (cycTrace START_RAW 1 5) (cycTrace START_RAW 1 9) overwriteState 0 0 0
    "cycle" hrun (by decide) (by decide)
    (fun t ht => absurd ht (List.not_mem_nil t)) (by decide)
  rw [h]
  decide

/-- The End record of the missing-start scenario: eventKind 2, tag-field
y 1, everything else 0 in the tag; row coordinates (x,y) = (0,1);
`cycle = 10`. -/
def endOnlyTrace : Trace := cycTrace (2 * 2 ^ 30 + 2 ^ 24) 1 10

/-- **C6**: a single End record (`cycle = 10`, no prior Start for its key)
emits the missing-start warning for tag 0 at relative tile (0,0),
processing continues, and the tile's delta for `cycle` is 10 (the End
snapshot minus a zero-valued baseline). -/
theorem missing_start_warning :
    (run schemaCyc dims11 [endOnlyTrace]).map (fun st =>
      (st.warnings, cget (tileStatFinal schemaCyc st 0 0 0) "cycle"))
      = some ([(0, 0, 0)], 10) := by decide

/-- A Start record whose absolute `y` coordinate (0) lies below the origin
row (1). -/
def belowOriginTrace : Trace := cycTrace START_RAW 0 7

/-- **C10**: a record whose coordinates fall below the origin offset does
not raise an error: the relative row index −1 wraps (Python negative list
indexing) to row `dim_y − 1 = 1`, whose credit balance and pending-Start
snapshot silently absorb the record; no warning is emitted. -/
theorem negative_coordinate_wraps :
    (run schemaCyc dims21 [belowOriginTrace]).map (fun st =>
      (st.tagCredits 0 1 0, cget (st.tileStatStart 0 1 0) "cycle",
        st.warnings)) = some (1, 7, []) := by decide

/-! ## List-row helper lemmas -/

theorem getD_set_ne {α : Type} (l : List α) {i j : Nat} (v d : α)
    (h : i ≠ j) : (l.set i v).getD j d = l.getD j d := by
  rw [List.getD_eq_getElem?_getD, List.getD_eq_getElem?_getD,
    List.getElem?_set_ne h]

theorem getD_set_self {α : Type} (l : List α) {i : Nat} (v d : α)
    (h : i < l.length) : (l.set i v).getD i d = v := by
  rw [List.getD_eq_getElem?_getD, List.getElem?_set_self]
  · rfl
  · exact h

theorem getD_replicate {α : Type} (n i : Nat) (c d : α) :
    (List.replicate n c).getD i d = if i < n then c else d := by
  rw [List.getD_eq_getElem?_getD, List.getElem?_replicate]
  split <;> rfl

theorem isEnd_false_of_isStart {cst : CudaStatTag} (h : cst.isStart = true) :
    cst.isEnd = false := by
  rw [CudaStatTag.isStart, beq_iff_eq] at h
  rw [CudaStatTag.isEnd, h]
  decide

theorem tg_id_toNat_lt (cst : CudaStatTag) : cst.tg_id.toNat < maxTileGroups := by
  have h4 : (2 : Int) ^ TG_ID_INDEX = 16 := by
    norm_num [TG_ID_INDEX, TAG_WIDTH, TAG_INDEX]
  have h14 : (2 : Int) ^ TG_ID_WIDTH = 16384 := by
    norm_num [TG_ID_WIDTH]
  have h1 : cst.tg_id < 16384 ∧ 0 ≤ cst.tg_id := by
    unfold CudaStatTag.tg_id extractField
    rw [h4, h14]
    omega
  have hm : maxTileGroups = 16384 := by decide
  omega

/-! ## Invariants of the fold -/

/-- The tile-group rows keep their construction length
(`max_tile_groups`) throughout the fold. -/
def RowLenInv (st : EngState) : Prop :=
  ∀ tag, (st.tileGroupStatStart tag).length = maxTileGroups
    ∧ (st.tileGroupStatEnd tag).length = maxTileGroups

theorem rowLenInv_init : RowLenInv initState := by
  intro tag
  exact ⟨List.length_replicate _ _, List.length_replicate _ _⟩

theorem rowLenInv_step (sch : Schema) (dims : Dims) (st : EngState)
    (t : Trace) (st' : EngState) (h : step sch dims st t = some st')
    (hinv : RowLenInv st) : RowLenInv st' := by
  obtain ⟨cst, hmk, hcase⟩ := step_inv sch dims st t st' h
  rcases hcase with ⟨ry, rx, hs, hy, hx, rfl⟩
    | ⟨ry, rx, hs, he, hy, hx, rfl⟩ | ⟨hs, he, rfl⟩
  · intro tag
    rw [stepStart_tileGroupStatStart, stepStart_tileGroupStatEnd]
    refine ⟨?_, (hinv tag).2⟩
    by_cases htag : tag = cst.tag.toNat
    · subst htag
      rw [upd1_self, List.length_set]
      exact (hinv _).1
    · rw [upd1_ne _ _ htag]
      exact (hinv _).1
  · intro tag
    rw [stepEnd_tileGroupStatStart, stepEnd_tileGroupStatEnd]
    refine ⟨(hinv tag).1, ?_⟩
    by_cases htag : tag = cst.tag.toNat
    · subst htag
      rw [upd1_self, List.length_set]
      exact (hinv _).2
    · rw [upd1_ne _ _ htag]
      exact (hinv _).2
  · exact hinv

theorem runFrom_numTags (sch : Schema) (dims : Dims) (l : List Trace) :
    ∀ st0 st1, runFrom sch dims st0 l = some st1 → RowLenInv st0 →
      st1.numTags = st0.numTags := by
  induction l with
  | nil =>
    intro st0 st1 h _
    rw [runFrom_nil] at h
    rw [← Option.some.inj h]
  | cons t l ih =>
    intro st0 st1 h hinv
    rw [runFrom_cons] at h
    cases hstep : step sch dims st0 t with
    | none => rw [hstep] at h; exact absurd h (by simp)
    | some st2 =>
      rw [hstep] at h
      simp only [Option.bind] at h
      rw [ih st2 st1 h (rowLenInv_step sch dims st0 t st2 hstep hinv)]
      obtain ⟨cst, hmk, hcase⟩ := step_inv sch dims st0 t st2 hstep
      rcases hcase with ⟨ry, rx, hs, hy, hx, rfl⟩
        | ⟨ry, rx, hs, he, hy, hx, rfl⟩ | ⟨hs, he, rfl⟩
      · rw [stepStart_numTags]
        have hlen := (hinv cst.tag.toNat).1
        have hne : (st0.tileGroupStatStart cst.tag.toNat).isEmpty = false := by
          cases hrow : st0.tileGroupStatStart cst.tag.toNat with
          | nil =>
            rw [hrow] at hlen
            exact absurd hlen (by decide)
          | cons a l2 => rfl
        rw [hne]
        simp
      · rw [stepEnd_numTags]
      · rfl

/-- **C9**: the `num_tags` value computed by the fold is 0 for every
successfully processed trace stream, however many distinct smallTags
appear: the new-tag test checks the truthiness of the per-tag row — a
fixed-size non-empty list of per-work-group counters — and never fires. -/
theorem num_tags_always_zero (sch : Schema) (dims : Dims)
    (traces : List Trace) (st : EngState)
    (hrun : run sch dims traces = some st) : st.numTags = 0 := by
  rw [run_eq_runFrom] at hrun
  rw [runFrom_numTags sch dims traces initState st hrun rowLenInv_init]
  rfl

def twoTagState : EngState :=
  (run schemaCyc dims11
    [cycTrace START_RAW 1 2, cycTrace (START_RAW + 1) 1 3]).getD initState

/-- Witness: a stream with Start records under two distinct smallTags
still reports zero tags. -/
theorem num_tags_always_zero_witness : twoTagState.numTags = 0 := by
  have hrun : run schemaCyc dims11
      [cycTrace START_RAW 1 2, cycTrace (START_RAW + 1) 1 3]
      = some twoTagState := rfl
  exact num_tags_always_zero schemaCyc dims11
    [cycTrace START_RAW 1 2, cycTrace (START_RAW + 1) 1 3] twoTagState hrun

/-! ## Work-group accumulation -/

/-- A record is a Start record for the work-group pair `(tag, tgid)`
(tile coordinates do not matter for work-group accumulation). -/
def isStartForWG (t : Trace) (tag tgid : Nat) : Bool :=
  match mkCudaStatTag t.tagRaw with
  | none => false
  | some cst => cst.isStart && cst.tag.toNat == tag
      && cst.tg_id.toNat == tgid

/-- A record is an End record for the work-group pair `(tag, tgid)`. -/
def isEndForWG (t : Trace) (tag tgid : Nat) : Bool :=
  match mkCudaStatTag t.tagRaw with
  | none => false
  | some cst => cst.isEnd && cst.tag.toNat == tag
      && cst.tg_id.toNat == tgid

/-- The sum of the `op` column over all Start records of `(tag, tgid)` —
the "sum of Start snapshots of all tiles reporting that work group". -/
def startAccum (traces : List Trace) (tag tgid : Nat) (op : String) : Int :=
  ((traces.filter (fun t => isStartForWG t tag tgid)).map
    (fun t => t.counts op)).sum

/-- The sum of the `op` column over all End records of `(tag, tgid)`. -/
def endAccum (traces : List Trace) (tag tgid : Nat) (op : String) : Int :=
  ((traces.filter (fun t => isEndForWG t tag tgid)).map
    (fun t => t.counts op)).sum

theorem startAccum_cons (t : Trace) (traces : List Trace) (tag tgid : Nat)
    (op : String) :
    startAccum (t :: traces) tag tgid op
      = (if isStartForWG t tag tgid then t.counts op else 0)
        + startAccum traces tag tgid op := by
  by_cases h : isStartForWG t tag tgid = true <;>
    simp [startAccum, List.filter_cons, h]

theorem endAccum_cons (t : Trace) (traces : List Trace) (tag tgid : Nat)
    (op : String) :
    endAccum (t :: traces) tag tgid op
      = (if isEndForWG t tag tgid then t.counts op else 0)
        + endAccum traces tag tgid op := by
  by_cases h : isEndForWG t tag tgid = true <;>
    simp [endAccum, List.filter_cons, h]

/-- Through the fold, the row entry of `(tag, tgid)` in the per-work-group
Start and End accumulators holds exactly the accumulated sums of the
processed records. -/
theorem tg_accum_runFrom (sch : Schema) (dims : Dims) (l : List Trace) :
    ∀ st0 st1, runFrom sch dims st0 l = some st1 → RowLenInv st0 →
    ∀ tag tgid op, sch.allOps.Nodup → op ∈ sch.allOps →
      cget ((st1.tileGroupStatStart tag).getD tgid Counter.empty) op
        = cget ((st0.tileGroupStatStart tag).getD tgid Counter.empty) op
          + startAccum l tag tgid op
      ∧ cget ((st1.tileGroupStatEnd tag).getD tgid Counter.empty) op
        = cget ((st0.tileGroupStatEnd tag).getD tgid Counter.empty) op
          + endAccum l tag tgid op := by
  induction l with
  | nil =>
    intro st0 st1 h _ tag tgid op _ _
    rw [runFrom_nil] at h
    rw [← Option.some.inj h]
    constructor <;> simp [startAccum, endAccum]
  | cons t l ih =>
    intro st0 st1 h hinv tag tgid op hnd hop
    rw [runFrom_cons] at h
    cases hstep : step sch dims st0 t with
    | none => rw [hstep] at h; exact absurd h (by simp)
    | some st2 =>
      rw [hstep] at h
      simp only [Option.bind] at h
      obtain ⟨ha, hb⟩ := ih st2 st1 h
        (rowLenInv_step sch dims st0 t st2 hstep hinv) tag tgid op hnd hop
      rw [ha, hb, startAccum_cons, endAccum_cons]
      obtain ⟨cst, hmk, hcase⟩ := step_inv sch dims st0 t st2 hstep
      rcases hcase with ⟨ry, rx, hs, hy, hx, rfl⟩
        | ⟨ry, rx, hs, he, hy, hx, rfl⟩ | ⟨hs, he, rfl⟩
      · -- Start record: the Start accumulator row gains the record, the
        -- End accumulator is untouched.
        have hef : isEndForWG t tag tgid = false := by
          simp [isEndForWG, hmk, isEnd_false_of_isStart hs]
        constructor
        · rw [stepStart_tileGroupStatStart]
          by_cases htag : tag = cst.tag.toNat
          · subst htag
            rw [upd1_self]
            by_cases htg : tgid = cst.tg_id.toNat
            · subst htg
              rw [getD_set_self _ _ _ (by rw [(hinv _).1]; exact tg_id_toNat_lt cst)]
              rw [applyOps_eq]
              rw [show (setAll (st0.tileStatStart cst.tag.toNat ry rx) sch.allOps
                    t.counts,
                  addAll ((st0.tileGroupStatStart cst.tag.toNat).getD
                    cst.tg_id.toNat Counter.empty) sch.allOps t.counts).2
                = addAll ((st0.tileGroupStatStart cst.tag.toNat).getD
                    cst.tg_id.toNat Counter.empty) sch.allOps t.counts from rfl]
              rw [cget_addAll _ _ _ _ hnd, if_pos hop]
              have hsf : isStartForWG t cst.tag.toNat cst.tg_id.toNat = true := by
                simp [isStartForWG, hmk, hs]
              rw [if_pos hsf]
              ring
            · rw [getD_set_ne _ _ _ (fun hh => htg hh.symm)]
              have hsf : isStartForWG t cst.tag.toNat tgid = false := by
                have hbe : (cst.tg_id.toNat == tgid) = false := by
                  rw [beq_eq_false_iff_ne]
                  exact fun hh => htg hh.symm
                simp [isStartForWG, hmk, hbe]
              rw [if_neg (by rw [hsf]; exact Bool.false_ne_true)]
              ring
          · rw [upd1_ne _ _ htag]
            have hsf : isStartForWG t tag tgid = false := by
              have hbe : (cst.tag.toNat == tag) = false := by
                rw [beq_eq_false_iff_ne]
                exact fun hh => htag hh.symm
              simp [isStartForWG, hmk, hbe]
            rw [if_neg (by rw [hsf]; exact Bool.false_ne_true)]
            ring
        · rw [stepStart_tileGroupStatEnd]
          rw [if_neg (by rw [hef]; exact Bool.false_ne_true)]
          ring
      · -- End record: symmetric.
        have hsf : isStartForWG t tag tgid = false := by
          simp [isStartForWG, hmk, hs]
        constructor
        · rw [stepEnd_tileGroupStatStart]
          rw [if_neg (by rw [hsf]; exact Bool.false_ne_true)]
          ring
        · rw [stepEnd_tileGroupStatEnd]
          by_cases htag : tag = cst.tag.toNat
          · subst htag
            rw [upd1_self]
            by_cases htg : tgid = cst.tg_id.toNat
            · subst htg
              rw [getD_set_self _ _ _ (by rw [(hinv _).2]; exact tg_id_toNat_lt cst)]
              rw [applyOps_eq]
              rw [show (setAll (st0.tileStatEnd cst.tag.toNat ry rx) sch.allOps
                    t.counts,
                  addAll ((st0.tileGroupStatEnd cst.tag.toNat).getD
                    cst.tg_id.toNat Counter.empty) sch.allOps t.counts).2
                = addAll ((st0.tileGroupStatEnd cst.tag.toNat).getD
                    cst.tg_id.toNat Counter.empty) sch.allOps t.counts from rfl]
              rw [cget_addAll _ _ _ _ hnd, if_pos hop]
              have hef : isEndForWG t cst.tag.toNat cst.tg_id.toNat = true := by
                simp [isEndForWG, hmk, he]
              rw [if_pos hef]
              ring
            · rw [getD_set_ne _ _ _ (fun hh => htg hh.symm)]
              have hef : isEndForWG t cst.tag.toNat tgid = false := by
                have hbe : (cst.tg_id.toNat == tgid) = false := by
                  rw [beq_eq_false_iff_ne]
                  exact fun hh => htg hh.symm
                simp [isEndForWG, hmk, hbe]
              rw [if_neg (by rw [hef]; exact Bool.false_ne_true)]
              ring
          · rw [upd1_ne _ _ htag]
            have hef : isEndForWG t tag tgid = false := by
              have hbe : (cst.tag.toNat == tag) = false := by
                rw [beq_eq_false_iff_ne]
                exact fun hh => htag hh.symm
              simp [isEndForWG, hmk, hbe]
            rw [if_neg (by rw [hef]; exact Bool.false_ne_true)]
            ring
      · -- Stat record: nothing changes and the record matches neither
        -- filter.
        have hsf : isStartForWG t tag tgid = false := by
          simp [isStartForWG, hmk, hs]
        have hef : isEndForWG t tag tgid = false := by
          simp [isEndForWG, hmk, he]
        rw [if_neg (by rw [hsf]; exact Bool.false_ne_true),
          if_neg (by rw [hef]; exact Bool.false_ne_true)]
        constructor <;> ring

/-- **C5** (amended): for every `(smallTag, wg)` with `wg` below the
number of distinct work groups for which a Start was observed under that
smallTag (`num_tile_groups[tag]`, the only entries the readout loop
visits), the finished work-group table reads, for each schema operation,
the positive part of (accumulated End sums − accumulated Start sums) —
the same Counter-subtraction clamping as for tiles.  Pairs outside that
range, including pairs observed only through End records, keep the empty
table. -/
theorem tile_group_accumulation (sch : Schema) (dims : Dims)
    (traces : List Trace) (st : EngState) (tag tgid : Nat) (op : String)
    (hrun : run sch dims traces = some st)
    (hnd : sch.allOps.Nodup) (hok : SchemaOK sch) (hop : op ∈ sch.allOps)
    (htg : tgid < st.numTileGroups tag) :
    cget (tileGroupStatFinal sch st tag tgid) op
      = max (endAccum traces tag tgid op - startAccum traces tag tgid op) 0 := by
  rw [run_eq_runFrom] at hrun
  obtain ⟨ha, hb⟩ := tg_accum_runFrom sch dims traces initState st hrun
    rowLenInv_init tag tgid op hnd hop
  have hinit1 : cget ((initState.tileGroupStatStart tag).getD tgid
      Counter.empty) op = 0 := by
    show cget ((List.replicate maxTileGroups Counter.empty).getD tgid
      Counter.empty) op = 0
    rw [getD_replicate]
    split <;> rfl
  have hinit2 : cget ((initState.tileGroupStatEnd tag).getD tgid
      Counter.empty) op = 0 := by
    show cget ((List.replicate maxTileGroups Counter.empty).getD tgid
      Counter.empty) op = 0
    rw [getD_replicate]
    split <;> rfl
  rw [hinit1, zero_add] at ha
  rw [hinit2, zero_add] at hb
  unfold tileGroupStatFinal
  rw [if_pos htg]
  obtain ⟨h1, h2, h3⟩ := op_ne_totals hok hop
  rw [cget_addTotals_ne sch _ h1 h2 h3, cget_csub, ha, hb]

/-- **C5, counterexample**: a single End record for work group 0 under
smallTag 0.  The pair is observed, its accumulated End − Start difference
for `cycle` is 10, but `num_tile_groups[0]` stays 0 (only Start records
are counted), so the finished work-group table keeps its empty Counter
and reads 0, not 10. -/
theorem tile_group_accumulation_cex :
    (run schemaCyc dims11 [endOnlyTrace]).map
      (fun st => cget (tileGroupStatFinal schemaCyc st 0 0) "cycle") = some 0
    ∧ isEndForWG endOnlyTrace 0 0 = true
    ∧ endAccum [endOnlyTrace] 0 0 "cycle"
        - startAccum [endOnlyTrace] 0 0 "cycle" = 10
    ∧ (0 : Int) ≠ 10 :=
  ⟨by decide, by decide, by decide, by decide⟩

def wgPairState : EngState :=
  (run schemaCyc dims11
    [cycTrace START_RAW 1 2, cycTrace END_RAW 1 10]).getD initState

/-- Witness: Start `cycle = 2` then End `cycle = 10` for work group 0 of
smallTag 0; the finished work-group table reads `max (10 − 2) 0 = 8`. -/
theorem tile_group_accumulation_witness :
    cget (tileGroupStatFinal schemaCyc wgPairState 0 0) "cycle" = 8 := by
  have hrun : run schemaCyc dims11
      [cycTrace START_RAW 1 2, cycTrace END_RAW 1 10]
      = some wgPairState := rfl
  have h := tile_group_accumulation schemaCyc dims11
    [cycTrace START_RAW 1 2, cycTrace END_RAW 1 10] wgPairState 0 0 "cycle"
    hrun (by decide) ⟨by decide, by decide, by decide⟩ (by decide) (by decide)
  rw [h]
  decide

/-! ## Grid rollup -/

theorem cget_foldl_add {α : Type} (k : String) (F : Counter → α → Counter)
    (h : α → Int) (hF : ∀ c a, cget (F c a) k = cget c k + h a)
    (l : List α) (c0 : Counter) :
    cget (l.foldl F c0) k = cget c0 k + (l.map h).sum := by
  induction l generalizing c0 with
  | nil => simp
  | cons a l ih =>
    rw [List.foldl_cons, List.map_cons, List.sum_cons, ih, hF]
    ring

/-- **C4**: for every smallTag and every operation of the extended
operation list (the schema plus the synthetic totals), the manycore
rollup of the finished per-tile counters equals the sum of those counters
over all grid coordinates. -/
theorem manycore_rollup (sch : Schema) (dims : Dims) (st : EngState)
    (tag : Nat) (op : String)
    (hop : op ∈ sch.allOpsFull) (hnd : sch.allOpsFull.Nodup) :
    cget (manycoreStatAll sch dims (tileStatFinal sch st) tag) op
      = gridSum dims
          (fun y x => cget (tileStatFinal sch st tag y x) op) := by
  have hOps : ∀ (src c2 : Counter),
      cget (sch.allOpsFull.foldl
        (fun c op2 => cadd c op2 (cget src op2)) c2) op
        = cget c2 op + cget src op := by
    intro src c2
    show cget (addAll c2 sch.allOpsFull (cget src)) op = _
    rw [cget_addAll _ _ _ _ hnd, if_pos hop]
  have hRow : ∀ (y : Nat) (c : Counter),
      cget ((List.range dims.dimX).foldl (fun c x =>
        sch.allOpsFull.foldl (fun c op2 =>
          cadd c op2 (cget (tileStatFinal sch st tag y x) op2)) c) c) op
        = cget c op + ((List.range dims.dimX).map
            (fun x => cget (tileStatFinal sch st tag y x) op)).sum := by
    intro y c
    exact cget_foldl_add op _ _
      (fun c2 x => hOps (tileStatFinal sch st tag y x) c2) _ c
  have hAll := cget_foldl_add op _ _ (fun c y => hRow y c)
    (List.range dims.dimY) Counter.empty
  unfold manycoreStatAll gridSum
  rw [hAll, cget_empty, zero_add]

/-- Witness: the rollup theorem at the exact-pair scenario state, smallTag
0, operation `instr_add`, where both sides evaluate to 10. -/
theorem manycore_rollup_witness :
    cget (manycoreStatAll schemaInstr dims11
      (tileStatFinal schemaInstr exactPairState) 0) "instr_add"
      = gridSum dims11 (fun y x =>
          cget (tileStatFinal schemaInstr exactPairState 0 y x) "instr_add")
    ∧ gridSum dims11 (fun y x =>
        cget (tileStatFinal schemaInstr exactPairState 0 y x) "instr_add")
      = 10 :=
  ⟨manycore_rollup schemaInstr dims11 exactPairState 0 "instr_add"
    (by decide) (by decide), by decide⟩

end VanillaStats
